import Mathlib

/-!
# gred — verification of the round-trip engine

Shallow embedding of the `gred` search-and-edit tool (Go).  Buffers are
`List Nat` (byte values), text lines read by the patch scanner are
`List Char` (Go's regexp works on runes).  Machine integers are modelled
as `Nat`/`Int`; 32-bit overflow is made explicit where it matters.

Layout:
* fingerprint codec (`hash/crc32`, `encoding/ascii85`, `crcBytes`)
* a small regex engine standing for Go's `regexp` (leftmost-first search)
* the scan pass of `search.go` (`lineExpand`, `countLines`, `printLines`, `grep`)
* the multi-pattern scan pass of `src/unnamed/part_001` (`match`, `seek`, `grep`)
* the patch pass of `patch.go` (`patchPrefixRe` parsing, `newPatchLine`,
  `nextPatch`, `patchInput`, `patch.Apply`, `patchLine.Check`)
-/

namespace Gred

/-! ## Byte-buffer helpers (package `bytes`) -/

/-- `bytes.IndexByte(buf, c)`: index of the first occurrence of `c`,
`none` standing for Go's `-1`. -/
def indexByte : List Nat → Nat → Option Nat
  | [], _ => none
  | b :: rest, c => if b = c then some 0 else (indexByte rest c).map (· + 1)

/-- `bytes.LastIndexByte(buf, c)`: index of the last occurrence of `c`,
`none` standing for Go's `-1`. -/
def lastIndexByte (buf : List Nat) (c : Nat) : Option Nat :=
  match indexByte buf.reverse c with
  | none => none
  | some i => some (buf.length - 1 - i)

/-- Go slice expression `buf[lo:hi]` (valid bounds assumed by the caller). -/
def goSlice (buf : List Nat) (lo hi : Nat) : List Nat :=
  (buf.take hi).drop lo

/-! ## CRC-32 (IEEE) — `hash/crc32.ChecksumIEEE`

Bitwise (table-free) form of the reflected IEEE polynomial 0xEDB88320;
it agrees with the table-driven implementation in the Go standard
library.  All values stay below `2^32`. -/

def crc32Poly : Nat := 0xEDB88320

/-- One bit step of the reflected CRC-32. -/
def crc32Bit (x : Nat) : Nat :=
  if x % 2 = 1 then (x / 2) ^^^ crc32Poly else x / 2

/-- Fold one input byte into the running CRC (`b % 256` makes the byte
width of the Go `byte` argument explicit). -/
def crc32Byte (crc b : Nat) : Nat :=
  crc32Bit (crc32Bit (crc32Bit (crc32Bit
    (crc32Bit (crc32Bit (crc32Bit (crc32Bit (crc ^^^ b % 256))))))))

/-- `crc32.ChecksumIEEE(b)`. -/
def checksumIEEE (bs : List Nat) : Nat :=
  (bs.foldl crc32Byte 0xFFFFFFFF) ^^^ 0xFFFFFFFF

/-! ## ascii85 — `encoding/ascii85` (encoder side only)

`ascii85.MaxEncodedLen(4) = 5`.  `Encode` writes into the destination
buffer; for a full 4-byte group of value 0 it writes the single byte
`'z'` and leaves the rest of the buffer untouched (the Go caller below
returns the whole 5-byte buffer regardless of how many bytes were
written). -/

def maxEncodedLen (n : Nat) : Nat := (n + 3) / 4 * 5

/-- The five base-85 digits (each offset by `'!' = 33`) of a 32-bit group. -/
def a85Digits (v : Nat) : List Nat :=
  [v / 85 ^ 4 % 85 + 33, v / 85 ^ 3 % 85 + 33, v / 85 ^ 2 % 85 + 33,
   v / 85 % 85 + 33, v % 85 + 33]

/-- `ascii85.Encode(dst, src)` for a single full 4-byte group `v`,
returning the (5-byte) destination buffer after the write.  The `z`
special case overwrites only `dst[0]`; `dst` starts zero-filled
(`make([]byte, 5)`). -/
def a85EncodeGroup (v : Nat) : List Nat :=
  if v = 0 then [122, 0, 0, 0, 0] else a85Digits v

/-- Big-endian 4-byte encoding written by
`binary.Write(buf, binary.BigEndian, crc)`. -/
def beBytes4 (v : Nat) : List Nat :=
  [v / 2 ^ 24 % 256, v / 2 ^ 16 % 256, v / 2 ^ 8 % 256, v % 256]

/-- Value of a 4-byte big-endian group (what `ascii85.Encode` computes
from its `src` bytes). -/
def beValue (bs : List Nat) : Nat :=
  bs.foldl (fun acc b => acc * 256 + b) 0

/-- `crcBytes` (src/search.go): CRC-32 of the line, written big-endian
into a 4-byte buffer, ascii85-encoded into a fresh
`make([]byte, ascii85.MaxEncodedLen(4))` buffer which is returned whole. -/
def crcBytes (b : List Nat) : List Nat :=
  a85EncodeGroup (beValue (beBytes4 (checksumIEEE b)))

/-- ASCII bytes of a Lean string (examples only use ASCII). -/
def strBytes (s : String) : List Nat := s.toList.map Char.toNat

/-! ## Regex engine — stands for Go's `regexp` package

The scan pass only ever calls `re.FindIndex(buf)`: the leftmost match,
with the extent a backtracking (leftmost-first, Perl-style) engine
produces.  The AST below covers the constructs the claims exercise:
single-byte classes, concatenation, alternation, greedy star of a
byte class, the empty pattern, and the context assertions `^`
(beginning of text, no multiline flag) and `\b` (ASCII word boundary). -/

inductive RE where
  | cls (c : Nat → Bool)
  | emp
  | seq (a b : RE)
  | alt (a b : RE)
  | starCls (c : Nat → Bool)
  | bol
  | wordB

/-- ASCII word character, as used by Go's `\b`. -/
def isWordByte (b : Nat) : Bool :=
  (48 ≤ b && b ≤ 57) || (65 ≤ b && b ≤ 90) || (97 ≤ b && b ≤ 122) || b = 95

/-- Wordness of the byte just before the current position; `none` is the
beginning of the text. -/
def prevWord : Option Nat → Bool
  | none => false
  | some b => isWordByte b

/-- The byte context after consuming `n` bytes of `s`, starting from
context `prev`. -/
def prevAfter (prev : Option Nat) (s : List Nat) (n : Nat) : Option Nat :=
  match (s.take n).getLast? with
  | none => prev
  | some b => some b

/-- Length of the longest prefix of `s` whose bytes satisfy `c`. -/
def runLen (c : Nat → Bool) : List Nat → Nat
  | [] => 0
  | b :: rest => if c b then runLen c rest + 1 else 0

/-- All candidate match lengths of `re` at the head of `s` (context
`prev`, `atStart` true iff position 0 of the searched text), in the
order a backtracking engine tries them: the head is the length
`FindIndex` reports when the position matches. -/
def ends (re : RE) (atStart : Bool) (prev : Option Nat) (s : List Nat) : List Nat :=
  match re with
  | .cls c => match s with
    | [] => []
    | b :: _ => if c b then [1] else []
  | .emp => [0]
  | .seq a b =>
      (ends a atStart prev s).flatMap fun n =>
        (ends b (atStart && n == 0) (prevAfter prev s n) (s.drop n)).map (n + ·)
  | .alt a b => ends a atStart prev s ++ ends b atStart prev s
  | .starCls c => (List.range (runLen c s + 1)).reverse
  | .bol => if atStart then [0] else []
  | .wordB =>
      let cur := match s with | [] => false | b :: _ => isWordByte b
      if prevWord prev != cur then [0] else []

/-- Leftmost-first search: try position 0, 1, … of `s`; `pos`/`prev`
carry the absolute position and the preceding byte. -/
def findAux (re : RE) (atStart : Bool) (prev : Option Nat) (s : List Nat)
    (pos : Nat) : Option (Nat × Nat) :=
  match ends re atStart prev s with
  | e :: _ => some (pos, pos + e)
  | [] =>
    match s with
    | [] => none
    | b :: rest => findAux re false (some b) rest (pos + 1)

/-- `re.FindIndex(buf)`: `some (start, end)` of the leftmost match,
`none` when the pattern does not match (Go returns `nil`). -/
def findIndex (re : RE) (buf : List Nat) : Option (Nat × Nat) :=
  findAux re true none buf 0

/-- Patterns free of context assertions (`^`, `\b`): their matching at a
position depends only on the suffix from that position. -/
def ctxFree : RE → Bool
  | .cls _ => true
  | .emp => true
  | .seq a b => ctxFree a && ctxFree b
  | .alt a b => ctxFree a && ctxFree b
  | .starCls _ => true
  | .bol => false
  | .wordB => false

/-- Patterns that can match the empty string (syntactic over-approximation,
exact for this AST). -/
def canEmpty : RE → Bool
  | .cls _ => false
  | .emp => true
  | .seq a b => canEmpty a && canEmpty b
  | .alt a b => canEmpty a || canEmpty b
  | .starCls _ => true
  | .bol => true
  | .wordB => true

/-! ## Scan pass — src/search.go

One emitted output line of the scan (`printLines` does
`fmt.Printf("%c%s\t%s:%d\t%s\n", sepLeft, crcBytes(line), path,
lineno+lines, line)`). -/

structure LineRec where
  first : Bool
  fp : List Nat
  path : String
  lineno : Nat
  content : List Nat
deriving DecidableEq, Repr

/-- `lineExpand(i, j, buf)` (src/search.go): expand a match span to full
line boundaries.  `x = 1 + bytes.LastIndexByte(buf[:i], '\n')`;
`y = j + bytes.IndexByte(buf[j:], '\n')`, clamped to `len(buf)` when no
newline follows. -/
def lineExpand (i j : Nat) (buf : List Nat) : Nat × Nat :=
  let x := match lastIndexByte (buf.take i) 10 with
    | none => 0
    | some p => p + 1
  let y := match indexByte (buf.drop j) 10 with
    | none => buf.length
    | some q => j + q
  (x, y)

/-- Loop body shared by `countLines`: scan for newlines from offset `n`.
The `fuel` argument only makes the recursion structural: every iteration
advances `n` by at least one, so with `fuel = buf.length + 1` the
zero-fuel branch is unreachable. -/
def countLinesGo (buf : List Nat) : Nat → Nat → Nat → Nat × Nat
  | 0, n, lines => (n, lines)
  | fuel + 1, n, lines =>
    if n < buf.length then
      match indexByte (buf.drop n) 10 with
      | none => (n, lines)
      | some i => countLinesGo buf fuel (n + i + 1) (lines + 1)
    else (n, lines)

/-- `countLines(lineno, buf)` (src/search.go): `n` is the offset just
past the last newline of `buf`, `lines` the number of newlines.  The
`lineno` parameter is unused in the source as well. -/
def countLines (lineno : Nat) (buf : List Nat) : Nat × Nat :=
  countLinesGo buf (buf.length + 1) 0 0

/-- Loop body of `printLines`.  `none` models the Go panic on the slice
`buf[n:i]` when the relative index `i` returned by
`bytes.IndexByte(buf[n:], '\n')` falls below `n` — the source slices
with the relative index. -/
def printLinesGo (first : Bool) (path : String) (lineno : Nat)
    (buf : List Nat) : Nat → Nat → Nat → List LineRec →
    Option (Nat × Nat × List LineRec)
  | 0, n, lines, acc => some (n, lines, acc)
  | fuel + 1, n, lines, acc =>
    if n < buf.length then
      match indexByte (buf.drop n) 10 with
      | none =>
          let line := buf.drop n
          let r : LineRec := ⟨first, crcBytes line, path, lineno + lines, line⟩
          some (n + buf.length, lines, acc ++ [r])
      | some i =>
          if n ≤ i then
            let line := goSlice buf n i
            let r : LineRec :=
              ⟨first, crcBytes line, path, lineno + (lines + 1), line⟩
            printLinesGo first path lineno buf fuel (n + i + 1) (lines + 1)
              (acc ++ [r])
          else none
    else some (n, lines, acc)

/-- `printLines(first, path, lineno, buf)` (src/search.go): returns
`(n, lines, emitted records)`, `none` on the slice panic.  As in
`countLinesGo`, the fuel only makes the loop structural; `buf.length +
1` iterations can never be reached because `n` strictly grows. -/
def printLines (first : Bool) (path : String) (lineno : Nat) (buf : List Nat) :
    Option (Nat × Nat × List LineRec) :=
  printLinesGo first path lineno buf (buf.length + 1) 0 0 []

/-- One iteration of the `for buf != nil` loop of `grep`
(src/search.go): `none` = loop body ran out of matches (`break`),
`some none` = panic inside `printLines`, `some (some _)` = next state. -/
structure SState where
  buf : List Nat
  lineno : Nat
  first : Bool
  out : List LineRec
deriving Repr

def grepSStep (pat : RE) (path : String) (st : SState) : Option (Option SState) :=
  match findIndex pat st.buf with
  | none => none
  | some (m0, m1) =>
    let (j, k) := lineExpand m0 m1 st.buf
    let (n, lines₁) := countLines st.lineno (st.buf.take j)
    let lineno₁ := st.lineno + lines₁
    match printLines st.first path lineno₁ (goSlice st.buf n k) with
    | none => some none
    | some (_, lines₂, recs) =>
      some (some { buf := st.buf.drop k, lineno := lineno₁ + lines₂,
                   first := false, out := st.out ++ recs })

def grepSGo (pat : RE) (path : String) :
    Nat → SState → Option (Option (List LineRec))
  | 0, _ => none
  | fuel + 1, st =>
    match grepSStep pat path st with
    | none => some (some st.out)
    | some none => some none
    | some (some st') => grepSGo pat path fuel st'

/-- `grep(path, s)` (src/search.go), fuelled: `none` = the fuel ran out
(the loop had not terminated), `some none` = panic, `some (some recs)` =
the loop terminated normally having emitted `recs`. -/
def grepSRun (pat : RE) (path : String) (buf : List Nat) (fuel : Nat) :
    Option (Option (List LineRec)) :=
  grepSGo pat path fuel { buf := buf, lineno := 1, first := true, out := [] }

/-! ## Scan output serialization

`printLines` emits `%c%s\t%s:%d\t%s\n`; the patch pass re-reads those
lines (split and stripped of `'\n'` by `bufio.Scanner`) as rune
sequences, modelled as `List Char`. -/

/-- One scan output line as the patch scanner sees it (without the
trailing newline). -/
def recToLine (r : LineRec) : List Char :=
  (if r.first then '╓' else '║') ::
    (r.fp.map Char.ofNat ++ '\t' :: r.path.toList ++ ':' ::
      Nat.toDigits 10 r.lineno ++ '\t' :: r.content.map Char.ofNat)

/-! ## Patch pass — src/patch.go -/

/-- ASCII codes of a rune sequence (patch-side contents are ASCII in all
inputs considered here). -/
def chBytes (cs : List Char) : List Nat := cs.map Char.toNat

def isHexUpper (c : Char) : Bool :=
  (65 ≤ c.toNat && c.toNat ≤ 70) || (48 ≤ c.toNat && c.toNat ≤ 57)

def isDigitCh (c : Char) : Bool := 48 ≤ c.toNat && c.toNat ≤ 57

/-- `patchPrefixRe.FindSubmatch(line)` for the anchored pattern
`^.([A-F0-9]{8}). ([^:]+):([0-9]+)\t` (src/patch.go:29), hand-compiled:
one rune (`.`, not a newline — scanner lines contain none), the 8-char
uppercase-hex group, one rune, a space, the non-colon path group
(nonempty, ended by the first `:`), the decimal group, a tab.  Returns
`(m[1], m[2], m[3], line[len(m[0]):])`. -/
def patchPfxMatch (line : List Char) :
    Option (List Char × List Char × List Char × List Char) :=
  match line with
  | [] => none
  | _ :: rest =>
    let crc := rest.take 8
    if crc.length == 8 && crc.all isHexUpper then
      match rest.drop 8 with
      | _ :: ' ' :: rest2 =>
        let path := rest2.takeWhile (fun c => !(c = ':'))
        if path.isEmpty then none
        else
          match rest2.drop path.length with
          | ':' :: rest4 =>
            let num := rest4.takeWhile isDigitCh
            if num.isEmpty then none
            else
              match rest4.drop num.length with
              | '\t' :: rest5 => some (crc, path, num, rest5)
              | _ => none
          | _ => none
      | _ => none
    else none

/-- `strconv.ParseUint(s, base, 32)`: `none` on an empty string, a
non-digit, or a value outside 32 bits. -/
def parseUint32 (digitVal : Char → Option Nat) (base : Nat)
    (cs : List Char) : Option Nat :=
  if cs.isEmpty then none
  else
    cs.foldlM
      (fun acc c =>
        match digitVal c with
        | none => none
        | some d =>
          let v := acc * base + d
          if v < 2 ^ 32 then some v else none)
      0

def hexDigitVal (c : Char) : Option Nat :=
  if 48 ≤ c.toNat && c.toNat ≤ 57 then some (c.toNat - 48)
  else if 65 ≤ c.toNat && c.toNat ≤ 70 then some (c.toNat - 55)
  else if 97 ≤ c.toNat && c.toNat ≤ 102 then some (c.toNat - 87)
  else none

def decDigitVal (c : Char) : Option Nat :=
  if 48 ≤ c.toNat && c.toNat ≤ 57 then some (c.toNat - 48) else none

/-- The patch parser's fingerprint decoding: group 1 of `patchPrefixRe`
(8 chars of `[A-F0-9]`) fed to `strconv.ParseUint(_, 16, 32)`
(src/patch.go:29 and `newPatchLine`, src/patch.go:45). -/
def decodeFingerTag (tag : List Nat) : Option Nat :=
  let cs := tag.map Char.ofNat
  if cs.length == 8 && cs.all isHexUpper then parseUint32 hexDigitVal 16 cs
  else none

structure patchLine where
  n : Nat
  b : List Nat
  crc : Nat
deriving DecidableEq, Repr

structure patch where
  path : List Char
  lines : List patchLine
deriving DecidableEq, Repr

/-- `newPatchLine(crc, lineno, line)` (src/patch.go): `none` = a
`strconv` parse error, `some none` = the fingerprint equals the CRC of
the current content, so the line is dropped silently, `some (some _)` =
a surviving edit carrying the *claimed* CRC. -/
def newPatchLine (crc lineno : List Char) (line : List Nat) :
    Option (Option patchLine) :=
  match parseUint32 hexDigitVal 16 crc with
  | none => none
  | some oldCrc =>
    if oldCrc = checksumIEEE line then some none
    else
      match parseUint32 decDigitVal 10 lineno with
      | none => none
      | some j => some (some ⟨j, line, oldCrc⟩)

inductive NPErrKind where
  | badPfx   -- BadPatchPrefix
  | badNum   -- a strconv error out of newPatchLine
  | dupPath  -- DupPathGroup
deriving DecidableEq, Repr

/-- A `patchError`: the wrapped error kind together with the 1-indexed
input line number (after `StartsFrom`). -/
inductive PatchParseErr where
  | mk (lineNo : Nat) (kind : NPErrKind)
deriving DecidableEq, Repr

/-- The `for n = 1; ; n++` loop of `nextPatch`: keep consuming lines of
the same path; a line with a different path is left unconsumed; errors
carry the 0-based index inside the group. -/
def npLoop (pa : List Char) (pls : List patchLine) (ls : List (List Char))
    (n : Nat) : Except (Nat × NPErrKind) (List patchLine × Nat) :=
  match ls with
  | [] => .ok (pls, n)
  | line :: rest =>
    match patchPfxMatch line with
    | none => .error (n, .badPfx)
    | some (crc, path2, num, rest5) =>
      if path2 = pa then
        match newPatchLine crc num (chBytes rest5) with
        | none => .error (n, .badNum)
        | some none => npLoop pa pls rest (n + 1)
        | some (some ln) => npLoop pa (pls ++ [ln]) rest (n + 1)
      else .ok (pls, n)

/-- `nextPatch(scan)` (src/patch.go): reads one path group starting at
`line`; returns the group (or `none` when every line was dropped), its
path, and the number of input lines consumed. -/
def nextPatchM (seen : List (List Char)) (line : List Char)
    (ls : List (List Char)) :
    Except (Nat × NPErrKind) (Option patch × List Char × Nat) :=
  match patchPfxMatch line with
  | none => .error (0, .badPfx)
  | some (crc, path, num, rest5) =>
    match newPatchLine crc num (chBytes rest5) with
    | none => .error (0, .badNum)
    | some firstLn =>
      if seen.contains path then .error (0, .dupPath)
      else
        match npLoop path (match firstLn with | none => [] | some l => [l]) ls 1 with
        | .error e => .error e
        | .ok (pls, n) =>
          if pls.isEmpty then .ok (none, path, n)
          else .ok (some ⟨path, pls.mergeSort (fun a b => a.n ≤ b.n)⟩, path, n)

/-- The `for err != io.EOF` loop of `patchInput` (src/patch.go):
`lineno` is the 1-indexed position of the current group's first line,
used by `patchError.StartsFrom`. -/
def patchInputGo (seen : List (List Char)) (acc : List patch) (lineno : Nat) :
    Nat → List (List Char) → Except PatchParseErr (List patch)
  | _, [] => .ok acc
  | 0, _ :: _ => .ok acc
  | fuel + 1, line :: rest =>
    match nextPatchM seen line rest with
    | .error (idx, k) => .error (.mk (idx + lineno) k)
    | .ok (p?, path, n) =>
      patchInputGo (path :: seen) (acc ++ p?.toList) (lineno + n) fuel
        (rest.drop (n - 1))

/-- `patchInput()` (src/patch.go) on the list of stdin lines; `ok []` is
the distinguished "stdin patches included no changes" outcome
(src/gred.go warns and skips the apply phase on it).  Each `nextPatch`
call consumes at least one line, so `ls.length + 1` rounds of fuel can
never run out. -/
def patchInput (ls : List (List Char)) : Except PatchParseErr (List patch) :=
  patchInputGo [] [] 1 (ls.length + 1) ls

deriving instance DecidableEq for Except

inductive ApplyErr where
  | ioEOF          -- a raw io.EOF out of ReadBytes/Discard in the copy loop
  | unexpectedEOF  -- UnexpectedEOF out of patchLine.Check
  | badCRC         -- BadCRC: "current file modified at patch line"
deriving DecidableEq, Repr

/-- `bufio.Reader.ReadBytes('\n')`: the prefix up to and including the
first newline, with the rest; `none` when no newline remains (Go then
reports `io.EOF`). -/
def readLine (inp : List Nat) : Option (List Nat × List Nat) :=
  match indexByte inp 10 with
  | none => none
  | some i => some (inp.take (i + 1), inp.drop (i + 1))

/-- `patchLine.Check(rdr)` (src/patch.go): read the next line *including
its trailing newline*, CRC it, and compare against the claimed
fingerprint.  Returns the rest of the input on success. -/
def patchLine.Check (ln : patchLine) (inp : List Nat) :
    Except ApplyErr (List Nat) :=
  match readLine inp with
  | none => .error .unexpectedEOF
  | some (line, rest) =>
    if checksumIEEE line = ln.crc then .ok rest else .error .badCRC

/-- The inner `for ln.n < lineno` copy loop of `patch.Apply`: `lineno`
only ever grows, so once entered the loop runs until `ReadBytes` (no
newline left) or `Discard(1)` (nothing left after the newline) fails;
either failure is an `io.EOF` which `Apply` returns as-is.  Every round
consumes at least two bytes, so fuel `inp.length + 1` cannot run out. -/
def applyCopy : Nat → List Nat → ApplyErr
  | 0, _ => .ioEOF
  | fuel + 1, inp =>
    match readLine inp with
    | none => .ioEOF
    | some (_, []) => .ioEOF
    | some (_, _ :: rest2) => applyCopy fuel rest2

/-- The edit loop of `patch.Apply` (src/patch.go:207).  `lineno` stays
at its initial value whenever every edit has `ln.n ≥ lineno` (the copy
loop's condition is `ln.n < lineno`); on the copy path the loop runs to
an `io.EOF`. -/
def applyGo : List patchLine → Nat → List Nat → List Nat →
    Except ApplyErr (List Nat)
  | [], _, inp, out => .ok (out ++ inp)
  | ln :: rest, lineno, inp, out =>
    if ln.n < lineno then .error (applyCopy (inp.length + 1) inp)
    else
      match patchLine.Check ln inp with
      | .error e => .error e
      | .ok inp' => applyGo rest lineno inp' (out ++ ln.b)

/-- `patch.Apply(rdr, wtr)` (src/patch.go:207-231) over a byte buffer:
the written output on success, the first error otherwise. -/
def patch.Apply (p : patch) (inp : List Nat) : Except ApplyErr (List Nat) :=
  applyGo p.lines 1 inp []

/-- Modelled from the spec: the temp-file/rename commit around
`patch.Apply` is not in src/ (the caller in src/gred.go invokes an
`Apply()` of a different arity).  Per spec §4.5, on success the original
file is atomically replaced by the applier's output; on any failure the
temp file is discarded and the original left byte-for-byte untouched. -/
def applyToFile (p : patch) (content : List Nat) : List Nat :=
  match patch.Apply p content with
  | .ok newContent => newContent
  | .error _ => content

/-! ## Multi-pattern scan pass — src/unnamed/part_001

The `match` struct and its `store`/`seek` methods, the winner-selection
loop, and the cursor resynchronization after a consumed region.  One
faithfulness note: in the source, `j, k := lineExpand(ms[j].idx[0],
ms[j].idx[1], buf)` *redeclares* `j` in the same block, so from that
point on `j` is the expanded line-start offset, and the resync loop's
`i == j` compares cursor indices against that offset — not against the
winner's index. -/

structure MCursor where
  fail : Bool
  s : Int
  e : Int
deriving DecidableEq, Repr

/-- The zero value of the Go `match` struct (`make([]match, …)`). -/
def zeroCursor : MCursor := ⟨false, 0, 0⟩

/-- `match.store(idx)`: on `nil` set the fail flag (the offsets keep
whatever value they had); otherwise overwrite the offsets (the fail flag
keeps its value — it is false whenever `store` can be reached). -/
def mstore (m : MCursor) : Option (Nat × Nat) → MCursor
  | none => { m with fail := true }
  | some (a, b) => { m with s := a, e := b }

/-- `match.seek(offset)`: a failed cursor is left alone (`false`);
otherwise both offsets are shifted down and the result says whether
either went negative (cursor must be re-searched). -/
def mseek (m : MCursor) (off : Nat) : MCursor × Bool :=
  if m.fail then (m, false)
  else
    let m' : MCursor := ⟨false, m.s - off, m.e - off⟩
    (m', decide (m'.s < 0) || decide (m'.e < 0))

/-- One step of the winner-selection loop of `grep`
(src/unnamed/part_001:211-224) at cursor index `i`: state `none` is Go's
`j = -1`; a live cursor replaces the state when its start is smaller, or
on a tied start when its end is larger. -/
def selStep (i : Nat) (st : Option (Nat × Int × Int)) (m : MCursor) :
    Option (Nat × Int × Int) :=
  if m.fail then st
  else
    match st with
    | none => some (i, m.s, m.e)
    | some (j, mn, mx) =>
      if m.s < mn then some (i, m.s, m.e)
      else if m.s = mn ∧ m.e > mx then some (i, mn, m.e)
      else some (j, mn, mx)

/-- The winner-selection loop: fold `selStep` over the cursors. -/
def selGo (i : Nat) (st : Option (Nat × Int × Int)) :
    List MCursor → Option (Nat × Int × Int)
  | [] => st
  | m :: rest => selGo (i + 1) (selStep i st m) rest

def selectWinner (ms : List MCursor) : Option (Nat × Int × Int) :=
  selGo 0 none ms

/-- The body of the resync loop (src/unnamed/part_001:239-244):
`if i == x || ms[i].seek(k) { ms[i].store(pat.FindIndex(buf)) }`, where
`x` is the (shadowed) line-start offset.  Short-circuit: at `i == x` the
cursor is not shifted before the re-search. -/
def resyncOne (pat : RE) (nb : List Nat) (k : Nat) (x i : Nat)
    (m : MCursor) : MCursor :=
  if i = x then mstore m (findIndex pat nb)
  else
    let sk := mseek m k
    if sk.2 then mstore sk.1 (findIndex pat nb) else sk.1

structure MState where
  pats : List RE
  buf : List Nat
  ms : List MCursor
  lineno : Nat
  first : Bool
  out : List LineRec

/-- One iteration of the `for buf != nil` loop of the multi-pattern
`grep`: `none` = no cursor matched (`break`), `some none` = a Go panic
(an out-of-range winner offset used as a slice index, or the
`printLines` slice bug), `some (some _)` = the next state. -/
def grepMStep (path : String) (st : MState) : Option (Option MState) :=
  match selectWinner st.ms with
  | none => none
  | some (jw, _, _) =>
    let mj := st.ms.getD jw zeroCursor
    if 0 ≤ mj.s ∧ 0 ≤ mj.e ∧ mj.s.toNat ≤ st.buf.length ∧
        mj.e.toNat ≤ st.buf.length then
      let xk := lineExpand mj.s.toNat mj.e.toNat st.buf
      let x := xk.1
      let k := xk.2
      let nl := countLines st.lineno (st.buf.take x)
      let lineno₁ := st.lineno + nl.2
      match printLines st.first path lineno₁ (goSlice st.buf nl.1 k) with
      | none => some none
      | some (_, lines₂, recs) =>
        let nb := st.buf.drop k
        let ms' := (List.range st.ms.length).map fun i =>
          resyncOne (st.pats.getD i .emp) nb k x i (st.ms.getD i zeroCursor)
        some (some { pats := st.pats, buf := nb, ms := ms',
                     lineno := lineno₁ + lines₂, first := false,
                     out := st.out ++ recs })
    else some none

/-- The primed initial state of `grep` (src/unnamed/part_001:200-205). -/
def grepMInit (pats : List RE) (buf : List Nat) : MState :=
  { pats := pats, buf := buf,
    ms := pats.map fun p => mstore zeroCursor (findIndex p buf),
    lineno := 1, first := true, out := [] }

def grepMGo (path : String) : Nat → MState → Option (Option (List LineRec))
  | 0, _ => none
  | fuel + 1, st =>
    match grepMStep path st with
    | none => some (some st.out)
    | some none => some none
    | some (some st') => grepMGo path fuel st'

/-- The multi-pattern `grep(path, s)` on one in-memory buffer, fuelled:
`none` = the fuel ran out before the matching loop ended. -/
def grepMRun (path : String) (pats : List RE) (buf : List Nat)
    (fuel : Nat) : Option (Option (List LineRec)) :=
  grepMGo path fuel (grepMInit pats buf)

/-- The matching loop reaches its end (normally or by panic) in some
finite number of iterations. -/
def grepMTerminates (path : String) (pats : List RE) (buf : List Nat) : Prop :=
  ∃ fuel, (grepMRun path pats buf fuel).isSome

/-! ## Concrete scenario artifacts

The buffers, patterns, records, and patch groups the claim instances
evaluate.  Patterns are the hand-compiled forms of the regexps named in
the spec scenarios. -/

/-- The pattern `b.*` (one literal byte, then greedy `.`-star). -/
def patB : RE := .seq (.cls (fun b => b == 98)) (.starCls (fun b => !(b == 10)))

/-- The pattern `b\nc` (a regexp whose match spans a newline). -/
def patBNC : RE :=
  .seq (.cls (fun b => b == 98)) (.seq (.cls (fun b => b == 10)) (.cls (fun b => b == 99)))

/-- The pattern `x` (a literal byte). -/
def patX : RE := .cls (fun b => b == 120)

/-- The pattern `\b\na` (a word boundary, then a newline, then a
literal). -/
def patBnA : RE :=
  .seq .wordB (.seq (.cls (fun b => b == 10)) (.cls (fun b => b == 97)))

/-- The pattern `x*` (greedy star: it matches the empty string). -/
def patStarX : RE := .starCls (fun b => b == 120)

/-- `f.txt` with the lines `alpha`, `beta`, `gamma`. -/
def fileF : List Nat := strBytes "alpha\nbeta\ngamma\n"

/-- The one record the scan of `fileF` with `patB` emits. -/
def betaRec : LineRec := ⟨true, crcBytes (strBytes "beta"), "f.txt", 2, strBytes "beta"⟩

/-- The patch group a correct parse of the edited `betaRec` (content
changed to `BETA`) would produce: target line 2, the scan-time
fingerprint of `beta`, new content `BETA`. -/
def betaPatch : patch :=
  ⟨"f.txt".toList, [⟨2, strBytes "BETA", checksumIEEE (strBytes "beta")⟩]⟩

/-- Like `betaPatch`, but with the claimed fingerprint that the broken
`Check` would actually accept at its (wrong) read position: the CRC of
`alpha` *including its newline*. -/
def alphaCrcPatch : patch :=
  ⟨"f.txt".toList, [⟨2, strBytes "BETA", checksumIEEE (strBytes "alpha\n")⟩]⟩

/-- A sample cursor list: two live cursors tied on start 1 (ends 3 and
5) and one exhausted cursor with an (ignored) earlier span. -/
def msEx : List MCursor := [⟨false, 1, 3⟩, ⟨false, 1, 5⟩, ⟨true, 0, 9⟩]

/-- Well-formedness of one cursor against a buffer of length `len`: a
live cursor's span is a nonempty in-bounds range. -/
def cursOk (len : Int) (m : MCursor) : Prop :=
  m.fail = false → 0 ≤ m.s ∧ m.s < m.e ∧ m.e ≤ len

/-- Loop invariant of the multi-pattern `grep`: cursors and patterns
stay aligned, no pattern matches the empty string, and every live
cursor holds a nonempty in-bounds span. -/
def msOk (st : MState) : Prop :=
  st.ms.length = st.pats.length ∧
  (∀ p ∈ st.pats, canEmpty p = false) ∧
  ∀ (i : Nat) (m : MCursor), st.ms[i]? = some m →
    cursOk (st.buf.length : Int) m

/-- The state the multi-pattern matching loop reaches after its first
iteration on the buffer `yyy` with the single pattern `x*`, and never
leaves: the buffer is exhausted, but `x*` still reports the empty match
`[0,0)`, the expanded region is empty (`k = 0`), and the resync
re-primes the same cursor. -/
def loopState : MState :=
  { pats := [patStarX], buf := [], ms := [⟨false, 0, 0⟩], lineno := 1,
    first := false,
    out := [⟨true, crcBytes (strBytes "yyy"), "f.txt", 1, strBytes "yyy"⟩] }

set_option maxRecDepth 1000000

/-! ## Shared lemmas -/

theorem indexByte_lt_length {buf : List Nat} {c i : Nat}
    (h : indexByte buf c = some i) : i < buf.length := by
  induction buf generalizing i with
  | nil => simp [indexByte] at h
  | cons b rest ih =>
    simp only [indexByte] at h
    split at h
    · injection h with h
      simp only [List.length_cons]
      omega
    · cases hr : indexByte rest c with
      | none => rw [hr] at h; simp at h
      | some j =>
        rw [hr, Option.map_some'] at h
        injection h with h
        have := ih hr
        simp only [List.length_cons]
        omega

theorem crc32Bit_lt {x : Nat} (h : x < 2 ^ 32) : crc32Bit x < 2 ^ 32 := by
  have hd : x / 2 < 2 ^ 32 := lt_of_le_of_lt (Nat.div_le_self x 2) h
  unfold crc32Bit
  split
  · exact Nat.xor_lt_two_pow hd (by norm_num [crc32Poly])
  · exact hd

theorem crc32Byte_lt {crc : Nat} (b : Nat) (h : crc < 2 ^ 32) :
    crc32Byte crc b < 2 ^ 32 := by
  have h0 : crc ^^^ b % 256 < 2 ^ 32 :=
    Nat.xor_lt_two_pow h (lt_of_lt_of_le (Nat.mod_lt b (by norm_num)) (by norm_num))
  unfold crc32Byte
  exact crc32Bit_lt (crc32Bit_lt (crc32Bit_lt (crc32Bit_lt (crc32Bit_lt
    (crc32Bit_lt (crc32Bit_lt (crc32Bit_lt h0)))))))

theorem foldl_crc32Byte_lt (bs : List Nat) :
    ∀ init : Nat, init < 2 ^ 32 → bs.foldl crc32Byte init < 2 ^ 32 := by
  induction bs with
  | nil => intro init h; simpa using h
  | cons b rest ih =>
    intro init h
    simpa using ih (crc32Byte init b) (crc32Byte_lt b h)

theorem checksumIEEE_lt (bs : List Nat) : checksumIEEE bs < 2 ^ 32 := by
  unfold checksumIEEE
  exact Nat.xor_lt_two_pow (foldl_crc32Byte_lt bs _ (by norm_num)) (by norm_num)

theorem beValue_beBytes4 {v : Nat} (h : v < 2 ^ 32) :
    beValue (beBytes4 v) = v := by
  simp only [beValue, beBytes4, List.foldl]
  omega

theorem crcBytes_eq (bs : List Nat) :
    crcBytes bs = a85EncodeGroup (checksumIEEE bs) := by
  unfold crcBytes
  rw [beValue_beBytes4 (checksumIEEE_lt bs)]

theorem a85EncodeGroup_length (v : Nat) : (a85EncodeGroup v).length = 5 := by
  unfold a85EncodeGroup a85Digits
  split <;> simp

theorem crcBytes_length (bs : List Nat) : (crcBytes bs).length = 5 := by
  rw [crcBytes_eq]
  exact a85EncodeGroup_length _

/-! ## Claims -/

/-- C10: for every input byte string, `crcBytes` returns a tag of
exactly `ascii85.MaxEncodedLen(4) = 5` bytes — the 5-byte buffer into
which the 4-byte big-endian CRC-32 IEEE checksum of the input was
ascii85-encoded — regardless of the content. -/
theorem C10_crcBytes_tag (bs : List Nat) :
    (crcBytes bs).length = maxEncodedLen 4 ∧ (crcBytes bs).length = 5 ∧
    crcBytes bs = a85EncodeGroup (checksumIEEE bs) :=
  ⟨by rw [crcBytes_length]; rfl, crcBytes_length bs, crcBytes_eq bs⟩

/-- C6: the patch parser's fingerprint decoding (the 8-hex-digit group
of `patchPrefixRe` fed through `strconv.ParseUint(_, 16, 32)`) accepts
*no* tag the scan-side encoder `crcBytes` can produce: every encoded tag
is 5 bytes of ascii85, never 8 bytes of upper-case hex, so
`decode(encode(x))` fails for every line content `x` instead of
returning the checksum of `x`. -/
theorem C6_decode_never_inverts_encode (bs : List Nat) :
    decodeFingerTag (crcBytes bs) = none := by
  have h5 : ((crcBytes bs).map Char.ofNat).length = 5 := by
    simp [crcBytes_length]
  unfold decodeFingerTag
  simp only []
  rw [if_neg]
  simp [h5]

theorem getElem?_some_lt {α : Type} {l : List α} {j : Nat} {c : α}
    (hj : l[j]? = some c) : j < l.length := by
  by_contra h
  rw [List.getElem?_eq_none (by omega)] at hj
  exact absurd hj (by simp)

/-- Cursor `m` does not beat the span `(mn, mx)` in the Go loop's
comparison order: either it starts strictly later, or it ties on start
without a longer end. -/
def spanBeats (mn mx : Int) (m : MCursor) : Prop :=
  mn < m.s ∨ (mn = m.s ∧ m.e ≤ mx)

theorem selStep_none {i : Nat} {st : Option (Nat × Int × Int)} {m : MCursor}
    (h : selStep i st m = none) : st = none ∧ m.fail = true := by
  unfold selStep at h
  by_cases hf : m.fail
  · rw [if_pos hf] at h
    exact ⟨h, hf⟩
  · rw [if_neg hf] at h
    cases st with
    | none => simp at h
    | some t =>
      obtain ⟨j, mn, mx⟩ := t
      simp only [] at h
      split at h
      · simp at h
      · split at h <;> simp at h

/-- Invariant of the winner-selection fold: walking `rest` with `done`
already processed (`i = done.length`), a `none` state means every
processed cursor failed, and a `some (j, mn, mx)` state is realized by
the live cursor at index `j` and dominates every processed live
cursor. -/
theorem selGo_spec (rest : List MCursor) :
    ∀ (done : List MCursor) (st : Option (Nat × Int × Int)),
      (st = none → ∀ m ∈ done, m.fail = true) →
      (∀ j mn mx, st = some (j, mn, mx) →
        done[j]? = some ⟨false, mn, mx⟩ ∧
        ∀ m ∈ done, m.fail = false → spanBeats mn mx m) →
      ((selGo done.length st rest = none →
          ∀ m ∈ done ++ rest, m.fail = true) ∧
       (∀ j mn mx, selGo done.length st rest = some (j, mn, mx) →
          (done ++ rest)[j]? = some ⟨false, mn, mx⟩ ∧
          ∀ m ∈ done ++ rest, m.fail = false → spanBeats mn mx m)) := by
  induction rest with
  | nil =>
    intro done st h0 h1
    simpa [selGo] using ⟨h0, h1⟩
  | cons m rest ih =>
    intro done st h0 h1
    have hlen : done.length + 1 = (done ++ [m]).length := by simp
    have hassoc : done ++ [m] ++ rest = done ++ m :: rest := by simp
    have step : selGo done.length st (m :: rest) =
        selGo (done ++ [m]).length (selStep done.length st m) rest := by
      rw [← hlen]
      rfl
    have hnewidx : (done ++ [m])[done.length]? = some m := by
      rw [List.getElem?_append]
      simp
    have hkeep : ∀ (j : Nat) (mn mx : Int),
        done[j]? = some (⟨false, mn, mx⟩ : MCursor) →
        (done ++ [m])[j]? = some (⟨false, mn, mx⟩ : MCursor) := by
      intro j mn mx hj
      rw [List.getElem?_append, if_pos (getElem?_some_lt hj)]
      exact hj
    have h0' : selStep done.length st m = none →
        ∀ x ∈ done ++ [m], x.fail = true := by
      intro hn x hx
      obtain ⟨hstn, hf⟩ := selStep_none hn
      rcases List.mem_append.1 hx with hx | hx
      · exact h0 hstn x hx
      · rw [List.mem_singleton.1 hx]; exact hf
    have h1' : ∀ j mn mx, selStep done.length st m = some (j, mn, mx) →
        (done ++ [m])[j]? = some ⟨false, mn, mx⟩ ∧
        ∀ x ∈ done ++ [m], x.fail = false → spanBeats mn mx x := by
      intro j mn mx hs'
      unfold selStep at hs'
      by_cases hf : m.fail
      · rw [if_pos hf] at hs'
        obtain ⟨hj, hd⟩ := h1 j mn mx hs'
        refine ⟨hkeep j mn mx hj, ?_⟩
        intro x hx hlive
        rcases List.mem_append.1 hx with hx | hx
        · exact hd x hx hlive
        · rw [List.mem_singleton.1 hx] at hlive
          rw [hlive] at hf
          exact absurd hf (by simp)
      · rw [if_neg hf] at hs'
        have hmeta : m = ⟨false, m.s, m.e⟩ := by
          cases m with
          | mk f a b => simp_all
        cases hs : st with
        | none =>
          rw [hs] at hs'
          simp only [Option.some.injEq, Prod.mk.injEq] at hs'
          obtain ⟨rfl, rfl, rfl⟩ := hs'
          refine ⟨by rw [← hmeta]; exact hnewidx, ?_⟩
          intro x hx hlive
          rcases List.mem_append.1 hx with hx | hx
          · exact absurd hlive (by simp [h0 hs x hx])
          · rw [List.mem_singleton.1 hx]
            right
            exact ⟨rfl, le_refl _⟩
        | some t =>
          obtain ⟨j0, mn0, mx0⟩ := t
          rw [hs] at hs'
          simp only [] at hs'
          obtain ⟨hj0, hd0⟩ := h1 j0 mn0 mx0 hs
          by_cases hlt : m.s < mn0
          · rw [if_pos hlt] at hs'
            simp only [Option.some.injEq, Prod.mk.injEq] at hs'
            obtain ⟨rfl, rfl, rfl⟩ := hs'
            refine ⟨by rw [← hmeta]; exact hnewidx, ?_⟩
            intro x hx hlive
            rcases List.mem_append.1 hx with hx | hx
            · rcases hd0 x hx hlive with h | h
              · left; omega
              · left; omega
            · rw [List.mem_singleton.1 hx]
              right
              exact ⟨rfl, le_refl _⟩
          · rw [if_neg hlt] at hs'
            by_cases htie : m.s = mn0 ∧ m.e > mx0
            · rw [if_pos htie] at hs'
              simp only [Option.some.injEq, Prod.mk.injEq] at hs'
              obtain ⟨rfl, rfl, rfl⟩ := hs'
              refine ⟨?_, ?_⟩
              · have hm2 : m = ⟨false, mn0, m.e⟩ := by
                  rw [hmeta]
                  simp [htie.1]
                rw [← hm2]
                exact hnewidx
              · intro x hx hlive
                rcases List.mem_append.1 hx with hx | hx
                · rcases hd0 x hx hlive with h | h
                  · left; exact h
                  · right; exact ⟨h.1, by omega⟩
                · rw [List.mem_singleton.1 hx]
                  right
                  exact ⟨htie.1.symm, le_refl _⟩
            · rw [if_neg htie] at hs'
              simp only [Option.some.injEq, Prod.mk.injEq] at hs'
              obtain ⟨rfl, rfl, rfl⟩ := hs'
              refine ⟨hkeep j0 mn0 mx0 hj0, ?_⟩
              intro x hx hlive
              rcases List.mem_append.1 hx with hx | hx
              · exact hd0 x hx hlive
              · rw [List.mem_singleton.1 hx]
                rcases Int.lt_or_le mn0 m.s with h | h
                · left; exact h
                · have heq : mn0 = m.s := by omega
                  right
                  refine ⟨heq, ?_⟩
                  by_contra hgt
                  exact htie ⟨heq.symm, by omega⟩
    have hmain := ih (done ++ [m]) (selStep done.length st m) h0' h1'
    rw [hassoc] at hmain
    rw [step]
    exact hmain

/-- Winner selection over the whole cursor list: the result, when it
exists, is realized by a live cursor and dominates every live cursor;
`none` means every cursor is exhausted. -/
theorem selectWinner_spec (ms : List MCursor) :
    (selectWinner ms = none → ∀ m ∈ ms, m.fail = true) ∧
    (∀ j mn mx, selectWinner ms = some (j, mn, mx) →
      ms[j]? = some ⟨false, mn, mx⟩ ∧
      ∀ m ∈ ms, m.fail = false → spanBeats mn mx m) := by
  have := selGo_spec ms [] none (by simp) (by simp)
  simpa [selectWinner] using this

/-- C2: whenever the matcher loop reports a winner, the winning span is
the span of a live (non-exhausted) cursor, and it is lexicographically
smallest in the `(start, -end)` order over all live cursors: every live
cursor either starts strictly later, or ties on start with an end no
larger. -/
theorem C2_winner_lex_smallest (ms : List MCursor) (j : Nat) (mn mx : Int)
    (h : selectWinner ms = some (j, mn, mx)) :
    ms[j]? = some ⟨false, mn, mx⟩ ∧
    ∀ m ∈ ms, m.fail = false → mn < m.s ∨ (mn = m.s ∧ m.e ≤ mx) :=
  (selectWinner_spec ms).2 j mn mx h

/-- Witness for C2 at a concrete cursor list: the tie on start 1 is won
by the longer end 5 (cursor index 1), and the exhausted cursor with the
earlier span is ignored. -/
theorem C2_winner_lex_smallest_witness :
    msEx[1]? = some ⟨false, 1, 5⟩ ∧
    ∀ m ∈ msEx, m.fail = false → (1 : Int) < m.s ∨ ((1 : Int) = m.s ∧ m.e ≤ 5) :=
  C2_winner_lex_smallest msEx 1 1 5 (by decide)

/-! ### Context-free patterns: a shifted span stays valid -/

/-- For a pattern without `^`/`\b`, the candidate ends at a position do
not depend on the position context. -/
theorem ends_ctxFree (re : RE) (h : ctxFree re = true) :
    ∀ (a1 a2 : Bool) (p1 p2 : Option Nat) (s : List Nat),
      ends re a1 p1 s = ends re a2 p2 s := by
  induction re with
  | cls c => intro a1 a2 p1 p2 s; rfl
  | emp => intro a1 a2 p1 p2 s; rfl
  | seq a b iha ihb =>
    intro a1 a2 p1 p2 s
    simp only [ctxFree, Bool.and_eq_true] at h
    simp only [ends]
    rw [iha h.1 a1 a2 p1 p2 s]
    have harg : (fun n => (ends b (a1 && n == 0) (prevAfter p1 s n)
          (s.drop n)).map (n + ·)) =
        fun n => (ends b (a2 && n == 0) (prevAfter p2 s n)
          (s.drop n)).map (n + ·) := by
      funext n
      rw [ihb h.2 (a1 && n == 0) (a2 && n == 0) (prevAfter p1 s n)
        (prevAfter p2 s n) (s.drop n)]
    rw [harg]
  | alt a b iha ihb =>
    intro a1 a2 p1 p2 s
    simp only [ctxFree, Bool.and_eq_true] at h
    simp only [ends]
    rw [iha h.1 a1 a2 p1 p2 s, ihb h.2 a1 a2 p1 p2 s]
  | starCls c => intro a1 a2 p1 p2 s; rfl
  | bol => simp [ctxFree] at h
  | wordB => simp [ctxFree] at h

theorem findAux_ctxFree (re : RE) (h : ctxFree re = true) :
    ∀ (s : List Nat) (a1 a2 : Bool) (p1 p2 : Option Nat) (pos : Nat),
      findAux re a1 p1 s pos = findAux re a2 p2 s pos := by
  intro s
  induction s with
  | nil =>
    intro a1 a2 p1 p2 pos
    simp only [findAux]
    rw [ends_ctxFree re h a1 a2 p1 p2 []]
  | cons b rest ih =>
    intro a1 a2 p1 p2 pos
    simp only [findAux]
    rw [ends_ctxFree re h a1 a2 p1 p2 (b :: rest)]

/-- Searching from position `pos + 1` just shifts the reported span. -/
theorem findAux_shift (re : RE) :
    ∀ (s : List Nat) (a : Bool) (p : Option Nat) (pos : Nat),
      findAux re a p s (pos + 1) =
        (findAux re a p s pos).map (fun q => (q.1 + 1, q.2 + 1)) := by
  intro s
  induction s with
  | nil =>
    intro a p pos
    simp only [findAux]
    cases ends re a p [] with
    | nil => rfl
    | cons e t => simp [Nat.add_right_comm]
  | cons b rest ih =>
    intro a p pos
    simp only [findAux]
    cases ends re a p (b :: rest) with
    | nil => exact ih false (some b) (pos + 1)
    | cons e t => simp [Nat.add_right_comm]

/-- Dropping `k ≤ start` bytes off the front of the buffer shifts the
leftmost match of a context-free pattern down by `k`. -/
theorem findAux_drop (re : RE) (hcf : ctxFree re = true) :
    ∀ (k : Nat) (s : List Nat) (a : Bool) (p : Option Nat) (x y : Nat),
      findAux re a p s 0 = some (x, y) → k ≤ x →
      findAux re true none (s.drop k) 0 = some (x - k, y - k) := by
  intro k
  induction k with
  | zero =>
    intro s a p x y h _
    simp only [List.drop_zero, Nat.sub_zero]
    rw [findAux_ctxFree re hcf s true a none p 0]
    exact h
  | succ k ih =>
    intro s a p x y h hk
    cases s with
    | nil =>
      exfalso
      simp only [findAux] at h
      cases hE : ends re a p [] with
      | nil => rw [hE] at h; exact absurd h (by simp)
      | cons e t =>
        rw [hE] at h
        simp only [Option.some.injEq, Prod.mk.injEq] at h
        omega
    | cons b rest =>
      simp only [findAux] at h
      cases hE : ends re a p (b :: rest) with
      | cons e t =>
        exfalso
        rw [hE] at h
        simp only [Option.some.injEq, Prod.mk.injEq] at h
        omega
      | nil =>
        have h1 : findAux re false (some b) rest 1 = some (x, y) := by
          rw [hE] at h
          exact h
        rw [show (1 : Nat) = 0 + 1 from rfl, findAux_shift] at h1
        cases h0 : findAux re false (some b) rest 0 with
        | none => rw [h0] at h1; exact absurd h1 (by simp)
        | some q =>
          obtain ⟨c, d⟩ := q
          rw [h0] at h1
          simp only [Option.map_some', Option.some.injEq, Prod.mk.injEq] at h1
          obtain ⟨hc, hd⟩ := h1
          have hkc : k ≤ c := by omega
          have := ih rest false (some b) c d h0 hkc
          simpa [show x - (k + 1) = c - k by omega,
                 show y - (k + 1) = d - k by omega] using this

/-- `FindIndex` over the remainder after dropping `k ≤ start` bytes. -/
theorem findIndex_drop (re : RE) (hcf : ctxFree re = true)
    (buf : List Nat) (s e k : Nat) (h : findIndex re buf = some (s, e))
    (hk : k ≤ s) : findIndex re (buf.drop k) = some (s - k, e - k) :=
  findAux_drop re hcf k buf true none s e h hk

/-- C3 (amended): after a winner's line-expanded region of `k` bytes is
consumed, (a) `seek` shifts a live cursor's span down by `k` and
requests a from-scratch re-search exactly when the shifted start or end
is negative; (b) any live cursor whose nonempty span lies inside the
consumed region — in particular the winner, whose span always does — is
re-searched from scratch by the resync loop (whether through the
`i == x` arm or through the negative shift); (c) a cursor whose shifted
span stays non-negative is reused without rescanning, and for a pattern
free of context assertions (`^`, `\b`) the reused span is exactly what a
from-scratch re-search over the new remaining buffer would report.  For
patterns *with* context assertions (c) fails — see the counterexample. -/
theorem C3_resync_amended (re : RE) (buf : List Nat) (s e k : Nat)
    (hcf : ctxFree re = true) (hfi : findIndex re buf = some (s, e)) :
    mseek ⟨false, s, e⟩ k =
      (⟨false, (s : Int) - k, (e : Int) - k⟩,
        decide ((s : Int) - k < 0) || decide ((e : Int) - k < 0)) ∧
    (∀ (x i : Nat) (nb : List Nat), s < e → e ≤ k →
      ∃ base, resyncOne re nb k x i ⟨false, s, e⟩ =
        mstore base (findIndex re nb)) ∧
    ((mseek ⟨false, s, e⟩ k).2 = false →
      findIndex re (buf.drop k) = some (s - k, e - k)) := by
  refine ⟨by simp [mseek], ?_, ?_⟩
  · intro x i nb hse hek
    unfold resyncOne
    by_cases hix : i = x
    · exact ⟨⟨false, s, e⟩, by rw [if_pos hix]⟩
    · refine ⟨⟨false, (s : Int) - k, (e : Int) - k⟩, ?_⟩
      rw [if_neg hix]
      have hneg : ((s : Int) - k < 0) := by omega
      simp [mseek, hneg]
  · intro hre
    simp only [mseek] at hre
    rw [if_neg (by simp)] at hre
    simp only [Bool.or_eq_false_iff, decide_eq_false_iff_not, not_lt] at hre
    have hk : k ≤ s := by omega
    exact findIndex_drop re hcf buf s e k hfi hk

/-- Witness for C3 (amended) with the pattern `b` over `x\nb`: at `k = 3`
the (nonempty, consumed) span `[2,3)` is re-searched from scratch; at
`k = 1` the shift keeps the span non-negative, no re-search is
requested, and the reused span `[1,2)` is exactly the from-scratch
match over the remaining buffer. -/
theorem C3_resync_amended_witness :
    (∃ base, resyncOne (RE.cls (fun b => b == 98)) [] 3 0 1 ⟨false, 2, 3⟩ =
      mstore base (findIndex (RE.cls (fun b => b == 98)) [])) ∧
    findIndex (RE.cls (fun b => b == 98)) ((strBytes "x\nb").drop 1) =
      some (1, 2) := by
  have h := C3_resync_amended (RE.cls (fun b => b == 98)) (strBytes "x\nb")
    2 3 3 (by decide) (by decide)
  have h' := C3_resync_amended (RE.cls (fun b => b == 98)) (strBytes "x\nb")
    2 3 1 (by decide) (by decide)
  exact ⟨h.2.1 0 1 [] (by decide) (by decide), h'.2.2 (by decide)⟩

/-- Counterexample for C3 as stated: for the context-sensitive pattern
`\b\na` over `x\nab`, the cursor holds the span `[1,3)`; after the first
line (1 byte) is consumed, `seek` shifts it to `[0,2)` and requests no
re-search — the span is reused — yet a from-scratch re-search of the
pattern over the remaining buffer `\nab` finds no match at all: the
reused span is not the span a fresh search would produce. -/
theorem C3_reuse_counterexample :
    findIndex patBnA (strBytes "x\nab") = some (1, 3) ∧
    mseek ⟨false, 1, 3⟩ 1 = (⟨false, 0, 2⟩, false) ∧
    findIndex patBnA ((strBytes "x\nab").drop 1) = none := by
  refine ⟨by decide, by decide, by decide⟩

/-! ### Bounds of the engine, and termination of the matching loop for
patterns that cannot match the empty string -/

theorem runLen_le (c : Nat → Bool) (s : List Nat) : runLen c s ≤ s.length := by
  induction s with
  | nil => simp [runLen]
  | cons b rest ih =>
    simp only [runLen, List.length_cons]
    split <;> omega

theorem ends_le (re : RE) :
    ∀ (a : Bool) (p : Option Nat) (s : List Nat) (x : Nat),
      x ∈ ends re a p s → x ≤ s.length := by
  induction re with
  | cls c =>
    intro a p s x hx
    cases s with
    | nil => simp [ends] at hx
    | cons b rest =>
      simp only [ends] at hx
      split at hx <;> simp_all
  | emp => intro a p s x hx; simp only [ends, List.mem_singleton] at hx; omega
  | seq r1 r2 ih1 ih2 =>
    intro a p s x hx
    simp only [ends, List.mem_flatMap, List.mem_map] at hx
    obtain ⟨n, hn, m, hm, rfl⟩ := hx
    have h1 := ih1 a p s n hn
    have h2 := ih2 (a && n == 0) (prevAfter p s n) (s.drop n) m hm
    simp only [List.length_drop] at h2
    omega
  | alt r1 r2 ih1 ih2 =>
    intro a p s x hx
    simp only [ends, List.mem_append] at hx
    rcases hx with hx | hx
    · exact ih1 a p s x hx
    · exact ih2 a p s x hx
  | starCls c =>
    intro a p s x hx
    simp only [ends, List.mem_reverse, List.mem_range] at hx
    have := runLen_le c s
    omega
  | bol =>
    intro a p s x hx
    simp only [ends] at hx
    split at hx <;> simp_all
  | wordB =>
    intro a p s x hx
    simp only [ends] at hx
    split at hx <;> simp_all

theorem ends_pos (re : RE) (hne : canEmpty re = false) :
    ∀ (a : Bool) (p : Option Nat) (s : List Nat) (x : Nat),
      x ∈ ends re a p s → 1 ≤ x := by
  induction re with
  | cls c =>
    intro a p s x hx
    cases s with
    | nil => simp [ends] at hx
    | cons b rest =>
      simp only [ends] at hx
      split at hx <;> simp_all
  | emp => simp [canEmpty] at hne
  | seq r1 r2 ih1 ih2 =>
    intro a p s x hx
    simp only [canEmpty, Bool.and_eq_false_iff] at hne
    simp only [ends, List.mem_flatMap, List.mem_map] at hx
    obtain ⟨n, hn, m, hm, rfl⟩ := hx
    rcases hne with hne | hne
    · have := ih1 hne a p s n hn
      omega
    · have := ih2 hne (a && n == 0) (prevAfter p s n) (s.drop n) m hm
      omega
  | alt r1 r2 ih1 ih2 =>
    intro a p s x hx
    simp only [canEmpty, Bool.or_eq_false_iff] at hne
    simp only [ends, List.mem_append] at hx
    rcases hx with hx | hx
    · exact ih1 hne.1 a p s x hx
    · exact ih2 hne.2 a p s x hx
  | starCls c => simp [canEmpty] at hne
  | bol => simp [canEmpty] at hne
  | wordB => simp [canEmpty] at hne

theorem findAux_bounds (re : RE) :
    ∀ (s : List Nat) (a : Bool) (p : Option Nat) (pos x y : Nat),
      findAux re a p s pos = some (x, y) →
      pos ≤ x ∧ x ≤ y ∧ y ≤ pos + s.length := by
  intro s
  induction s with
  | nil =>
    intro a p pos x y h
    simp only [findAux] at h
    cases hE : ends re a p [] with
    | nil => rw [hE] at h; exact absurd h (by simp)
    | cons e t =>
      rw [hE] at h
      simp only [Option.some.injEq, Prod.mk.injEq] at h
      have he : e ≤ ([] : List Nat).length :=
        ends_le re a p [] e (by rw [hE]; exact List.mem_cons_self e t)
      simp only [List.length_nil] at he
      omega
  | cons b rest ih =>
    intro a p pos x y h
    simp only [findAux] at h
    cases hE : ends re a p (b :: rest) with
    | cons e t =>
      rw [hE] at h
      simp only [Option.some.injEq, Prod.mk.injEq] at h
      have he : e ≤ (b :: rest).length :=
        ends_le re a p (b :: rest) e (by rw [hE]; exact List.mem_cons_self e t)
      simp only [List.length_cons] at he ⊢
      omega
    | nil =>
      rw [hE] at h
      have := ih false (some b) (pos + 1) x y h
      simp only [List.length_cons]
      omega

theorem findAux_pos (re : RE) (hne : canEmpty re = false) :
    ∀ (s : List Nat) (a : Bool) (p : Option Nat) (pos x y : Nat),
      findAux re a p s pos = some (x, y) → x < y := by
  intro s
  induction s with
  | nil =>
    intro a p pos x y h
    simp only [findAux] at h
    cases hE : ends re a p [] with
    | nil => rw [hE] at h; exact absurd h (by simp)
    | cons e t =>
      rw [hE] at h
      simp only [Option.some.injEq, Prod.mk.injEq] at h
      have he : 1 ≤ e :=
        ends_pos re hne a p [] e (by rw [hE]; exact List.mem_cons_self e t)
      omega
  | cons b rest ih =>
    intro a p pos x y h
    simp only [findAux] at h
    cases hE : ends re a p (b :: rest) with
    | cons e t =>
      rw [hE] at h
      simp only [Option.some.injEq, Prod.mk.injEq] at h
      have he : 1 ≤ e :=
        ends_pos re hne a p (b :: rest) e (by rw [hE]; exact List.mem_cons_self e t)
      omega
    | nil =>
      rw [hE] at h
      exact ih false (some b) (pos + 1) x y h

/-- A live cursor freshly stored from `FindIndex` over `nb` is
well-formed for `nb` (for a pattern that cannot match empty). -/
theorem mstore_ok (m : MCursor) (re : RE) (hne : canEmpty re = false)
    (nb : List Nat) : cursOk (nb.length : Int) (mstore m (findIndex re nb)) := by
  cases hf : findIndex re nb with
  | none => intro hc; simp [mstore] at hc
  | some q =>
    obtain ⟨a, b⟩ := q
    intro hc
    obtain ⟨h1, h2, h3⟩ := findAux_bounds re nb true none 0 a b hf
    have hab := findAux_pos re hne nb true none 0 a b hf
    simp only [mstore]
    refine ⟨by positivity, by exact_mod_cast hab, by exact_mod_cast (by omega : b ≤ nb.length)⟩

/-- The `y` offset of `lineExpand` covers the match end and stays inside
the buffer. -/
theorem lineExpand_snd_bounds (i j : Nat) (buf : List Nat)
    (hj : j ≤ buf.length) :
    j ≤ (lineExpand i j buf).2 ∧ (lineExpand i j buf).2 ≤ buf.length := by
  have h2 : (lineExpand i j buf).2 =
      match indexByte (buf.drop j) 10 with
      | none => buf.length
      | some q => j + q := rfl
  cases hq : indexByte (buf.drop j) 10 with
  | none =>
    have h3 : (lineExpand i j buf).2 = buf.length := by rw [h2, hq]
    rw [h3]
    exact ⟨hj, le_refl _⟩
  | some q =>
    have h3 : (lineExpand i j buf).2 = j + q := by rw [h2, hq]
    rw [h3]
    have hlt := indexByte_lt_length hq
    simp only [List.length_drop] at hlt
    constructor <;> omega

/-- One resync-loop slot keeps cursors well-formed for the remaining
buffer. -/
theorem resyncOne_ok (pat : RE) (hne : canEmpty pat = false)
    (bl k x i : Nat) (m : MCursor) (nb : List Nat)
    (hm : cursOk (bl : Int) m) (hnb : nb.length = bl - k) (hkb : k ≤ bl) :
    cursOk (nb.length : Int) (resyncOne pat nb k x i m) := by
  unfold resyncOne
  by_cases hix : i = x
  · rw [if_pos hix]
    exact mstore_ok m pat hne nb
  · rw [if_neg hix]
    by_cases hf : m.fail
    · simp only [mseek, if_pos hf]
      intro hc
      simp only [Bool.false_eq_true, if_false] at hc
      rw [hf] at hc
      exact absurd hc (by simp)
    · simp only [mseek, if_neg hf]
      obtain ⟨hs0, hse, hebl⟩ := hm (by simpa using hf)
      by_cases hd1 : (m.s - (k : Int) < 0) ∨ (m.e - (k : Int) < 0)
      · have hflag : (decide (m.s - (k : Int) < 0) ||
            decide (m.e - (k : Int) < 0)) = true := by
          rcases hd1 with hd | hd <;> simp [hd]
        rw [hflag]
        simp only [if_pos]
        exact mstore_ok _ pat hne nb
      · push_neg at hd1
        have hflag : (decide (m.s - (k : Int) < 0) ||
            decide (m.e - (k : Int) < 0)) = false := by
          simp only [Bool.or_eq_false_iff, decide_eq_false_iff_not, not_lt]
          exact ⟨hd1.1, hd1.2⟩
        rw [hflag]
        simp only [Bool.false_eq_true, if_false]
        intro _
        have hnbi : (nb.length : Int) = (bl : Int) - k := by
          rw [hnb]
          omega
        refine ⟨?_, ?_, ?_⟩ <;> simp only [] <;> omega

theorem grepMStep_preserves (path : String) (st st' : MState)
    (hok : msOk st) (h : grepMStep path st = some (some st')) :
    msOk st' ∧ st'.buf.length < st.buf.length := by
  unfold grepMStep at h
  cases hw : selectWinner st.ms with
  | none => rw [hw] at h; exact absurd h (by simp)
  | some t =>
    obtain ⟨jw, mn, mx⟩ := t
    rw [hw] at h
    simp only [] at h
    obtain ⟨hreal, _⟩ := (selectWinner_spec st.ms).2 jw mn mx hw
    have hmj : st.ms.getD jw zeroCursor = ⟨false, mn, mx⟩ := by
      rw [List.getD_eq_getElem?_getD, hreal]
      rfl
    rw [hmj] at h
    have hcur := hok.2.2 jw ⟨false, mn, mx⟩ hreal rfl
    simp only [] at hcur
    obtain ⟨hmn0, hmnmx, hmxlen⟩ := hcur
    have hguard : 0 ≤ (⟨false, mn, mx⟩ : MCursor).s ∧
        0 ≤ (⟨false, mn, mx⟩ : MCursor).e ∧
        (⟨false, mn, mx⟩ : MCursor).s.toNat ≤ st.buf.length ∧
        (⟨false, mn, mx⟩ : MCursor).e.toNat ≤ st.buf.length := by
      refine ⟨hmn0, by show (0 : Int) ≤ mx; omega,
        by show mn.toNat ≤ st.buf.length; omega,
        by show mx.toNat ≤ st.buf.length; omega⟩
    rw [if_pos hguard] at h
    have hjlen : mx.toNat ≤ st.buf.length := hguard.2.2.2
    have hyb := lineExpand_snd_bounds mn.toNat mx.toNat st.buf hjlen
    have hk1 : 1 ≤ (lineExpand mn.toNat mx.toNat st.buf).2 := by
      have h1 : (1 : Nat) ≤ mx.toNat := by omega
      omega
    cases hpl : printLines st.first path
        (st.lineno + (countLines st.lineno
          (st.buf.take (lineExpand mn.toNat mx.toNat st.buf).1)).2)
        (goSlice st.buf (countLines st.lineno
          (st.buf.take (lineExpand mn.toNat mx.toNat st.buf).1)).1
          (lineExpand mn.toNat mx.toNat st.buf).2) with
    | none =>
      rw [hpl] at h
      exact absurd h (by simp)
    | some q =>
      obtain ⟨n2, l2, recs⟩ := q
      rw [hpl] at h
      simp only [Option.some.injEq] at h
      subst h
      set k := (lineExpand mn.toNat mx.toNat st.buf).2 with hkdef
      constructor
      · refine ⟨by simp [hok.1], hok.2.1, ?_⟩
        intro i m hm
        simp only [List.getElem?_map] at hm
        by_cases hi : i < st.ms.length
        · rw [List.getElem?_range hi, Option.map_some'] at hm
          simp only [Option.some.injEq] at hm
          have hpat : canEmpty (st.pats.getD i .emp) = false := by
            have hilen2 : i < st.pats.length := by
              rw [← hok.1]
              exact hi
            have hmem : st.pats.getD i .emp ∈ st.pats := by
              rw [List.getD_eq_getElem?_getD, List.getElem?_eq_getElem hilen2]
              exact List.getElem_mem hilen2
            exact hok.2.1 _ hmem
          have hg : st.ms[i]? = some (st.ms.getD i zeroCursor) := by
            rw [List.getD_eq_getElem?_getD, List.getElem?_eq_getElem hi]
            rfl
          have hmi := hok.2.2 i _ hg
          rw [← hm]
          exact resyncOne_ok (st.pats.getD i .emp) hpat st.buf.length k
            (lineExpand mn.toNat mx.toNat st.buf).1 i
            (st.ms.getD i zeroCursor) (st.buf.drop k) hmi
            (by simp) hyb.2
        · rw [List.getElem?_eq_none (by simpa using hi)] at hm
          exact absurd hm (by simp)
      · simp only [List.length_drop]
        omega

theorem grepMGo_isSome (path : String) :
    ∀ (fuel : Nat) (st : MState), msOk st → st.buf.length < fuel →
      (grepMGo path fuel st).isSome = true := by
  intro fuel
  induction fuel with
  | zero => intro st _ h; omega
  | succ fuel ih =>
    intro st hok hlen
    show (match grepMStep path st with
      | none => some (some st.out)
      | some none => some none
      | some (some st') => grepMGo path fuel st').isSome = true
    cases hs : grepMStep path st with
    | none => simp
    | some o =>
      cases o with
      | none => simp
      | some st' =>
        obtain ⟨hok', hlt⟩ := grepMStep_preserves path st st' hok hs
        exact ih st' hok' (by omega)

theorem grepMInit_ok (pats : List RE) (buf : List Nat)
    (hne : ∀ p ∈ pats, canEmpty p = false) : msOk (grepMInit pats buf) := by
  refine ⟨by simp [grepMInit], by simpa [grepMInit] using hne, ?_⟩
  intro i m hm
  simp only [grepMInit, List.getElem?_map] at hm
  cases hp : pats[i]? with
  | none => rw [hp] at hm; exact absurd hm (by simp)
  | some p =>
    rw [hp] at hm
    simp only [Option.map_some', Option.some.injEq] at hm
    rw [← hm]
    exact mstore_ok zeroCursor p (hne p (by
      have := getElem?_some_lt hp
      rw [List.getElem?_eq_getElem this] at hp
      injection hp with hp
      rw [← hp]
      exact List.getElem_mem this)) buf

theorem grepMStep_enters_loopState :
    grepMStep "f.txt" (grepMInit [patStarX] (strBytes "yyy")) =
      some (some loopState) := rfl

theorem grepMStep_loopState_fix :
    grepMStep "f.txt" loopState = some (some loopState) := rfl

theorem grepMGo_loopState_none (n : Nat) :
    grepMGo "f.txt" n loopState = none := by
  induction n with
  | zero => rfl
  | succ n ih =>
    show (match grepMStep "f.txt" loopState with
      | none => some (some loopState.out)
      | some none => some none
      | some (some st') => grepMGo "f.txt" n st') = none
    rw [grepMStep_loopState_fix]
    exact ih

/-- C9 (amended): for every buffer and every pattern set in which no
pattern can match the empty string, the matching loop of the
multi-pattern `grep` reaches a terminal outcome (normal end of matching
or a panic) within `buf.length + 1` iterations: each iteration consumes
at least one byte.  The restriction is forced: with a pattern that
matches the empty string the loop need not terminate — see the
counterexample. -/
theorem C9_loop_terminates (path : String) (pats : List RE)
    (buf : List Nat) (hne : ∀ p ∈ pats, canEmpty p = false) :
    (grepMRun path pats buf (buf.length + 1)).isSome = true := by
  unfold grepMRun
  apply grepMGo_isSome path (buf.length + 1) (grepMInit pats buf)
    (grepMInit_ok pats buf hne)
  simp [grepMInit]

/-- Witness for C9 (amended): the literal pattern `x` (which cannot
match empty) over the buffer `x\nab` — the loop finishes within 5
iterations of fuel. -/
theorem C9_loop_terminates_witness :
    (grepMRun "w.txt" [patX] (strBytes "x\nab")
      ((strBytes "x\nab").length + 1)).isSome = true :=
  C9_loop_terminates "w.txt" [patX] (strBytes "x\nab") (by decide)

/-- Counterexample for C9 as stated: with the pattern `x*`, which
matches the empty string, the matcher loop on the buffer `yyy` never
terminates: after the first iteration consumes the whole buffer, `x*`
keeps reporting the empty match `[0,0)` on the empty remainder, the
expanded line region is empty (`k = 0`), and the state reached after
the first iteration is a fixpoint of the loop body, so no amount of
fuel makes the loop finish. -/
theorem C9_empty_pattern_diverges :
    ¬ grepMTerminates "f.txt" [patStarX] (strBytes "yyy") := by
  rintro ⟨fuel, hf⟩
  cases fuel with
  | zero => exact absurd hf (by simp [grepMRun, grepMGo])
  | succ n =>
    unfold grepMRun at hf
    have hstep : grepMGo "f.txt" (n + 1)
        (grepMInit [patStarX] (strBytes "yyy")) =
        grepMGo "f.txt" n loopState := by
      show (match grepMStep "f.txt" (grepMInit [patStarX] (strBytes "yyy")) with
        | none => some (some (grepMInit [patStarX] (strBytes "yyy")).out)
        | some none => some none
        | some (some st') => grepMGo "f.txt" n st') =
        grepMGo "f.txt" n loopState
      rw [grepMStep_enters_loopState]
    rw [hstep, grepMGo_loopState_none n] at hf
    exact absurd hf (by simp)

/-- C1: scanning `f.txt` (lines `alpha`, `beta`, `gamma`) with the
pattern `b.*` emits exactly one record — line 2 with the fingerprint of
`beta` — but feeding that record back through patch mode with the
content edited to `BETA` dies at the parser (`BadPatchPrefix` on input
line 1): `patchPrefixRe` wants an 8-char upper-case-hex fingerprint and
a space separator, while the scan emits a 5-char ascii85 tag and tabs.
Even a hand-built patch group for the edit is refused by `Apply`
(`BadCRC` against the unmodified file), so no `alpha/BETA/gamma` file is
ever produced. -/
theorem C1_scenario :
    grepSRun patB "f.txt" fileF 3 = some (some [betaRec]) ∧
    patchInput [recToLine { betaRec with content := strBytes "BETA" }] =
      .error (.mk 1 .badPfx) ∧
    patch.Apply betaPatch fileF = .error .badCRC ∧
    applyToFile betaPatch fileF = fileF := by
  refine ⟨by decide, by decide, by decide, by decide⟩

/-- C5: the round trip is not a silent no-op: feeding the *unedited*
scan output of `fileF` straight back into patch mode does not produce
the distinguished "no changes" result (`ok []`); the parser fails
fatally with `BadPatchPrefix` on the first line, because no line the
scan formatter emits matches `patchPrefixRe`. -/
theorem C5_roundtrip_noop_fails :
    grepSRun patB "f.txt" fileF 3 = some (some [betaRec]) ∧
    patchInput [recToLine betaRec] = .error (.mk 1 .badPfx) ∧
    patchInput [recToLine betaRec] ≠ .ok ([] : List patch) := by
  refine ⟨by decide, by decide, by decide⟩

/-- C4: staleness detection is broken.  With the file byte-for-byte
*unmodified* since the scan, applying the edit for line 2 already fails
with `BadCRC` ("current file modified at patch line"): `Apply` never
seeks to the target line (its copy-loop condition `ln.n < lineno` is
inverted), so `Check` reads the file's *first* unread line and CRCs it
*including its trailing newline*; the same `BadCRC` comes back whether
or not line 2 was really modified, and a fingerprint computed over
`alpha\n` is accepted in place of line 2's. -/
theorem C4_stale_check_wrong_line :
    patch.Apply betaPatch fileF = .error .badCRC ∧
    applyToFile betaPatch fileF = fileF ∧
    patch.Apply betaPatch (strBytes "alpha\nZETA\ngamma\n") = .error .badCRC ∧
    (patch.Apply alphaCrcPatch fileF).isOk = true := by
  refine ⟨by decide, by decide, by decide, by decide⟩

/-- C7: `Apply` does not copy-substitute-copy.  For the group
`[(line 2, fingerprint of beta, new content BETA)]` over the original
file it returns `BadCRC` instead of `alpha\nBETA\ngamma\n`; and when the
claimed fingerprint is doctored so the (mislocated) check passes, the
output is `BETAbeta\ngamma\n`: no line is copied ahead of the edit, the
new content replaces nothing and gets no newline, and the remainder
(including the line that should have been replaced) is appended
verbatim. -/
theorem C7_apply_structure :
    patch.Apply betaPatch fileF = .error .badCRC ∧
    patch.Apply alphaCrcPatch fileF = .ok (strBytes "BETAbeta\ngamma\n") ∧
    patch.Apply alphaCrcPatch fileF ≠ .ok (strBytes "alpha\nBETA\ngamma\n") := by
  refine ⟨by decide, by decide, by decide⟩

/-- C8: a match whose line-expanded span covers several physical lines
is mis-numbered: scanning `ab\ncd\n` with the pattern `b\nc` emits the
two covered lines with line numbers 2 and 2 — the first record carries
the *second* line's number (the printer increments its counter before
printing) — instead of the true, strictly increasing positions 1 and 2.
Fingerprints are still per physical line. -/
theorem C8_multiline_numbering :
    grepSRun patBNC "g.txt" (strBytes "ab\ncd\n") 3 =
      some (some
        [⟨true, crcBytes (strBytes "ab"), "g.txt", 2, strBytes "ab"⟩,
         ⟨true, crcBytes (strBytes "cd"), "g.txt", 2, strBytes "cd"⟩]) := by
  decide

end Gred
